import Mathlib

/-!
# Verification of `concurrent.Execute` (package `concurrent`, file `concurrent.go`)

The Go function under study is the generic fan-out/fan-in executor

  func Execute[TypeIn any, TypeOut any](numOfRoutines int, inputs []TypeIn,
      process func(input TypeIn) TypeOut) []TypeOut

Its deterministic skeleton is embedded shallowly below:

* `Concurrent.distribute` / `Concurrent.workerQueues` model the distributor
  goroutine (lines 32-40 of concurrent.go): item `i` is sent on channel
  `i % numOfRoutines`, so each worker channel carries an ordered stream of
  the inputs assigned to it.
* `Concurrent.workerOutputs` models the worker goroutines (lines 21-29):
  each worker maps `process` over its own input stream in FIFO order.
* `Concurrent.Interleaving` captures the nondeterminism of the shared
  unbuffered output channel (lines 12, 26, 47-51): the slice collected by the
  caller is some order-preserving interleaving of the per-worker output
  streams.  Every schedule the Go runtime can produce yields such an
  interleaving, so properties proved for all interleavings hold for every run.
* `Concurrent.Execute` is the resulting relation between the arguments and the
  observable outcome of a call, including the two panicking configurations:
  a negative `numOfRoutines` makes `make([](chan TypeIn), numOfRoutines)` on
  line 11 panic, and `numOfRoutines = 0` with nonempty `inputs` makes
  `i % numOfRoutines` on line 34 raise an integer divide-by-zero.
* A second model, the transition system `Concurrent.Step`, captures the
  blocking rendezvous protocol itself (unbuffered channels, channel close,
  `sync.WaitGroup`) in order to prove deadlock freedom and termination.
-/

namespace Concurrent

/-- Observable outcome of a call to `Execute`: either the returned slice, or a
Go runtime panic with the runtime's message. -/
inductive GoResult (β : Type) where
  | ok (outputs : List β)
  | panicked (msg : String)
deriving DecidableEq

/-- Panic message of `make` with a negative length (concurrent.go line 11 when
`numOfRoutines < 0`). -/
def makesliceMsg : String := "makeslice: len out of range"

/-- Panic message of `i % numOfRoutines` when `numOfRoutines = 0`
(concurrent.go line 34). -/
def divideByZeroMsg : String := "runtime error: integer divide by zero"

/-- One send of the distributor: value `x` is appended to the stream of channel
`i` (concurrent.go line 35, `inputChannels[channel] <- input`). -/
def sendTo (chans : List (List α)) (i : Nat) (x : α) : List (List α) :=
  chans.set i (chans.getD i [] ++ [x])

/-- The distributor loop of concurrent.go lines 33-36: starting at index `i`,
each remaining input is sent on channel `index % numOfRoutines`. -/
def distribute (numOfRoutines : Nat) : Nat → List α → List (List α) → List (List α)
  | _, [], chans => chans
  | i, x :: xs, chans =>
      distribute numOfRoutines (i + 1) xs (sendTo chans (i % numOfRoutines) x)

/-- The complete streams sent on the `numOfRoutines` worker channels, starting
from the freshly made empty channels of concurrent.go lines 13-15. -/
def workerQueues (numOfRoutines : Nat) (inputs : List α) : List (List α) :=
  distribute numOfRoutines 0 inputs (List.replicate numOfRoutines [])

/-- The stream of results each worker sends on the shared output channel:
worker `w` receives its queue in FIFO order and applies `process` to each item
(concurrent.go lines 23-28). -/
def workerOutputs (numOfRoutines : Nat) (inputs : List α) (process : α → β) :
    List (List β) :=
  (workerQueues numOfRoutines inputs).map (List.map process)

/-- `Interleaving streams out`: `out` is obtained by repeatedly taking the head
of one of the `streams`, so each stream appears in `out` as a subsequence in
its own order.  This is the set of slices the collector loop of concurrent.go
lines 48-51 can build from the per-worker output streams. -/
inductive Interleaving {β : Type} : List (List β) → List β → Prop where
  | nil (streams : List (List β)) (h : ∀ l ∈ streams, l = []) :
      Interleaving streams []
  | cons (pre : List (List β)) (x : β) (rest : List β) (post : List (List β))
      (out : List β) (h : Interleaving (pre ++ rest :: post) out) :
      Interleaving (pre ++ (x :: rest) :: post) (x :: out)

/-- The observable behaviour of `Execute numOfRoutines inputs process`
(concurrent.go lines 10-54).  `numOfRoutines` is a Go `int`, hence `Int` here:
a negative value panics inside `make` on line 11; zero with a nonempty input
panics with a divide by zero on line 34 (no worker goroutine exists in that
case, so `process` is never called); otherwise the call returns some
interleaving of the per-worker output streams. -/
def Execute (numOfRoutines : Int) (inputs : List α) (process : α → β)
    (r : GoResult β) : Prop :=
  if numOfRoutines < 0 then r = .panicked makesliceMsg
  else if numOfRoutines = 0 ∧ inputs.isEmpty = false then
    r = .panicked divideByZeroMsg
  else
    ∃ outs, r = .ok outs ∧
      Interleaving (workerOutputs numOfRoutines.toNat inputs process) outs

/-! ### Basic properties of the distributor -/

theorem length_sendTo (chans : List (List α)) (i : Nat) (x : α) :
    (sendTo chans i x).length = chans.length := by
  simp [sendTo]

theorem length_distribute (numOfRoutines : Nat) :
    ∀ (xs : List α) (i : Nat) (chans : List (List α)),
      (distribute numOfRoutines i xs chans).length = chans.length := by
  intro xs
  induction xs with
  | nil => intro i chans; rfl
  | cons x xs ih =>
      intro i chans
      simp [distribute, ih, length_sendTo]

theorem length_workerQueues (numOfRoutines : Nat) (inputs : List α) :
    (workerQueues numOfRoutines inputs).length = numOfRoutines := by
  simp [workerQueues, length_distribute]

/-- Appending one value to one channel permutes the concatenation of all
channel streams by appending that value. -/
theorem flatten_sendTo_perm (chans : List (List α)) (i : Nat) (x : α)
    (h : i < chans.length) :
    (sendTo chans i x).flatten.Perm (chans.flatten ++ [x]) := by
  have hset : sendTo chans i x
      = chans.take i ++ (chans[i] ++ [x]) :: chans.drop (i + 1) := by
    rw [sendTo, List.getD_eq_getElem _ _ h, List.set_eq_take_cons_drop _ h]
  have hchans : chans.flatten
      = (chans.take i).flatten ++ (chans[i] :: chans.drop (i + 1)).flatten := by
    conv_lhs => rw [← List.take_append_drop i chans, List.drop_eq_getElem_cons h]
    rw [List.flatten_append]
  rw [hset, hchans]
  simp only [List.flatten_append, List.flatten_cons, List.append_assoc]
  exact List.Perm.append_left _ (List.Perm.append_left _ List.perm_append_comm)

/-- Running the distributor appends (up to permutation) the distributed inputs
to the concatenation of the channel streams. -/
theorem flatten_distribute_perm (numOfRoutines : Nat) (hN : 1 ≤ numOfRoutines) :
    ∀ (xs : List α) (i : Nat) (chans : List (List α)),
      chans.length = numOfRoutines →
      (distribute numOfRoutines i xs chans).flatten.Perm (chans.flatten ++ xs) := by
  intro xs
  induction xs with
  | nil => intro i chans _; simp [distribute]
  | cons x xs ih =>
      intro i chans hlen
      have hlt : i % numOfRoutines < chans.length := by
        rw [hlen]; exact Nat.mod_lt _ hN
      have h₁ := ih (i + 1) (sendTo chans (i % numOfRoutines) x)
        (by rw [length_sendTo, hlen])
      simp only [distribute]
      refine (h₁.trans ?_)
      have h₂ := (flatten_sendTo_perm chans (i % numOfRoutines) x hlt).append_right xs
      refine h₂.trans ?_
      simp [List.append_assoc]

/-- The multiset of all values sent across the worker channels is exactly the
multiset of inputs. -/
theorem flatten_workerQueues_perm (numOfRoutines : Nat) (hN : 1 ≤ numOfRoutines)
    (inputs : List α) :
    (workerQueues numOfRoutines inputs).flatten.Perm inputs := by
  have h := flatten_distribute_perm numOfRoutines hN inputs 0
    (List.replicate numOfRoutines []) (by simp)
  simpa using h

/-! ### Basic properties of interleavings -/

/-- Any interleaving of the streams is a permutation of their concatenation. -/
theorem Interleaving.perm_flatten {streams : List (List β)} {out : List β}
    (h : Interleaving streams out) : out.Perm streams.flatten := by
  induction h with
  | nil streams h => simp [List.flatten_eq_nil_iff.mpr h]
  | cons pre x rest post out _ ih =>
      have hmid : (pre ++ (x :: rest) :: post).flatten
          = pre.flatten ++ x :: (rest ++ post.flatten) := by
        simp [List.flatten_append, List.flatten_cons]
      have hplain : (pre ++ rest :: post).flatten
          = pre.flatten ++ (rest ++ post.flatten) := by
        simp [List.flatten_append, List.flatten_cons]
      rw [hmid]
      refine (ih.cons x).trans ?_
      rw [hplain]
      exact List.perm_middle.symm

/-- Prepending an exhausted stream preserves interleavings. -/
theorem interleaving_nil_cons {streams : List (List β)} {out : List β}
    (h : Interleaving streams out) : Interleaving ([] :: streams) out := by
  induction h with
  | nil streams h => exact .nil _ (by simpa using h)
  | cons pre x rest post out _ ih =>
      exact .cons ([] :: pre) x rest post out ih

/-- Concatenating the streams in order is one particular interleaving. -/
theorem interleaving_flatten (streams : List (List β)) :
    Interleaving streams streams.flatten := by
  induction streams with
  | nil => exact .nil [] (by simp)
  | cons l rest ih =>
      induction l with
      | nil =>
          rw [List.flatten_cons, List.nil_append]
          exact interleaving_nil_cons ih
      | cons x xs ihx => exact .cons [] x xs rest _ ihx

/-! ### The happy path of `Execute` -/

/-- Introduction rule: with a positive routine count, any interleaving of the
worker output streams is an observable result of `Execute`. -/
theorem execute_intro (numOfRoutines : Int) (hN : 1 ≤ numOfRoutines)
    (inputs : List α) (process : α → β) (outs : List β)
    (h : Interleaving (workerOutputs numOfRoutines.toNat inputs process) outs) :
    Execute numOfRoutines inputs process (.ok outs) := by
  rw [Execute, if_neg (by omega), if_neg (by rintro ⟨h0, -⟩; omega)]
  exact ⟨outs, rfl, h⟩

/-- `Execute` with a positive routine count always has at least one observable
result: the one where the collector drains worker 0 fully, then worker 1, and
so on. -/
theorem execute_total (numOfRoutines : Int) (hN : 1 ≤ numOfRoutines)
    (inputs : List α) (process : α → β) :
    Execute numOfRoutines inputs process
      (.ok ((workerOutputs numOfRoutines.toNat inputs process).flatten)) :=
  execute_intro numOfRoutines hN inputs process _ (interleaving_flatten _)

/-- Elimination rule: with a positive routine count, every observable result of
`Execute` is a returned slice that is a permutation of `inputs.map process`. -/
theorem execute_ok (numOfRoutines : Int) (hN : 1 ≤ numOfRoutines)
    (inputs : List α) (process : α → β) (r : GoResult β)
    (h : Execute numOfRoutines inputs process r) :
    ∃ outs, r = .ok outs ∧ outs.Perm (inputs.map process) := by
  rw [Execute, if_neg (by omega), if_neg (by rintro ⟨h0, -⟩; omega)] at h
  obtain ⟨outs, hr, hint⟩ := h
  refine ⟨outs, hr, ?_⟩
  have hN' : 1 ≤ numOfRoutines.toNat := by omega
  have h₁ : outs.Perm (workerOutputs numOfRoutines.toNat inputs process).flatten :=
    hint.perm_flatten
  have h₂ : (workerOutputs numOfRoutines.toNat inputs process).flatten
      = ((workerQueues numOfRoutines.toNat inputs).flatten).map process := by
    rw [workerOutputs, List.map_flatten]
  have h₃ : ((workerQueues numOfRoutines.toNat inputs).flatten).map process
      |>.Perm (inputs.map process) :=
    (flatten_workerQueues_perm numOfRoutines.toNat hN' inputs).map process
  exact h₁.trans (h₂ ▸ h₃)

/-! ### The single-worker case -/

/-- With a single routine, every index satisfies `i % 1 = 0`, so the one
channel receives all inputs in order. -/
theorem distribute_one :
    ∀ (xs : List α) (i : Nat) (q : List α), distribute 1 i xs [q] = [q ++ xs] := by
  intro xs
  induction xs with
  | nil => intro i q; simp [distribute]
  | cons x xs ih =>
      intro i q
      simp only [distribute, Nat.mod_one]
      rw [show sendTo [q] 0 x = [q ++ [x]] from rfl, ih]
      simp

theorem workerQueues_one (inputs : List α) : workerQueues 1 inputs = [inputs] := by
  rw [workerQueues]
  simpa using distribute_one inputs 0 []

/-- An interleaving of a single stream is that stream itself. -/
theorem Interleaving.eq_of_singleton {streams : List (List β)} {out : List β}
    (h : Interleaving streams out) :
    ∀ l, streams = [l] → out = l := by
  induction h with
  | nil streams hnil =>
      intro l hl
      subst hl
      exact (hnil l (by simp)).symm
  | cons pre x rest post out hint ih =>
      intro l hl
      cases pre with
      | nil =>
          rw [List.nil_append] at hl
          injection hl with h1 h2
          subst h2
          rw [← h1, ih rest (by simp)]
      | cons p ps =>
          exfalso
          have hlength := congrArg List.length hl
          simp at hlength

/-! ### The spec's round-robin description -/

/-- The assignment rule exactly as §4.4 of the spec words it: worker `w`
receives the items at input positions `i` with `i % workerCount = w`, in the
order those items appear in the input. -/
def specWorkerQueue (workerCount : Nat) (inputs : List α) (w : Nat) : List α :=
  (inputs.enum.filter fun p => p.1 % workerCount == w).map Prod.snd

/-- The channel stream of worker `w` after the distributor loop, as a function
of the starting index and starting channel contents. -/
theorem getD_distribute (numOfRoutines w : Nat) (hw : w < numOfRoutines) :
    ∀ (xs : List α) (i : Nat) (chans : List (List α)),
      chans.length = numOfRoutines →
      (distribute numOfRoutines i xs chans).getD w []
        = chans.getD w []
            ++ ((xs.enumFrom i).filter fun p => p.1 % numOfRoutines == w).map
                Prod.snd := by
  intro xs
  induction xs with
  | nil => intro i chans hlen; simp [distribute]
  | cons x xs ih =>
      intro i chans hlen
      have hwlt : w < chans.length := by omega
      simp only [distribute, List.enumFrom_cons]
      rw [ih (i + 1) _ (by rw [length_sendTo, hlen])]
      by_cases hcase : i % numOfRoutines = w
      · rw [List.filter_cons_of_pos (by simpa using hcase)]
        have hsend : (sendTo chans (i % numOfRoutines) x).getD w []
            = chans.getD w [] ++ [x] := by
          rw [hcase, sendTo,
            List.getD_eq_getElem _ _ (by simpa using hwlt)]
          simp
        rw [hsend]
        simp [List.append_assoc]
      · rw [List.filter_cons_of_neg (by simpa using hcase)]
        have hsend : (sendTo chans (i % numOfRoutines) x).getD w []
            = chans.getD w [] := by
          rw [sendTo, List.getD_eq_getElem _ _ (by simpa using hwlt),
            List.getElem_set_ne hcase, ← List.getD_eq_getElem _ _ hwlt]
        rw [hsend]

/-- Queue `w` produced by the code equals the spec's description of it. -/
theorem workerQueues_getD (numOfRoutines : Nat) (inputs : List α) (w : Nat)
    (hw : w < numOfRoutines) :
    (workerQueues numOfRoutines inputs).getD w []
      = specWorkerQueue numOfRoutines inputs w := by
  rw [workerQueues, getD_distribute numOfRoutines w hw inputs 0 _ (by simp)]
  have hrep : (List.replicate numOfRoutines ([] : List α)).getD w [] = [] := by
    rw [List.getD_eq_getElem _ _ (by simpa using hw)]
    simp
  rw [hrep, specWorkerQueue, List.enum]
  simp

/-! ### Claim theorems -/

/-- C1: for every worker count `N ≥ 1` and every finite input slice, any
observable result of `Execute` is a returned slice containing exactly
`inputs.length` elements. -/
theorem execute_length (numOfRoutines : Int) (inputs : List α) (process : α → β)
    (r : GoResult β) (hN : 1 ≤ numOfRoutines)
    (h : Execute numOfRoutines inputs process r) :
    ∃ outs, r = .ok outs ∧ outs.length = inputs.length := by
  obtain ⟨outs, hr, hperm⟩ := execute_ok numOfRoutines hN inputs process r h
  exact ⟨outs, hr, by rw [hperm.length_eq, List.length_map]⟩

/-- Witness for C1 at `numOfRoutines = 2`, `inputs = [10, 20, 30]`. -/
theorem execute_length_witness :
    (1 : Int) ≤ 2 ∧
    Execute 2 [10, 20, 30] (fun x : Nat => x + 1) (GoResult.ok [11, 31, 21]) ∧
    ∃ outs, GoResult.ok [11, 31, 21] = GoResult.ok outs ∧
      outs.length = [10, 20, 30].length := by
  have h : Execute (2 : Int) [10, 20, 30] (fun x : Nat => x + 1) (.ok [11, 31, 21]) :=
    execute_total 2 (by norm_num) [10, 20, 30] (fun x => x + 1)
  exact ⟨by norm_num, h,
    execute_length 2 [10, 20, 30] (fun x => x + 1) _ (by norm_num) h⟩

/-- C2: for every worker count `N ≥ 1`, the multiset of returned values equals
the multiset of `process x` over the inputs — `process` is applied exactly once
to each input element. -/
theorem execute_multiset (numOfRoutines : Int) (inputs : List α) (process : α → β)
    (r : GoResult β) (hN : 1 ≤ numOfRoutines)
    (h : Execute numOfRoutines inputs process r) :
    ∃ outs, r = .ok outs ∧
      (↑outs : Multiset β) = Multiset.map process (↑inputs : Multiset α) := by
  obtain ⟨outs, hr, hperm⟩ := execute_ok numOfRoutines hN inputs process r h
  refine ⟨outs, hr, ?_⟩
  have := Multiset.coe_eq_coe.mpr hperm
  simpa using this

/-- Witness for C2 at `numOfRoutines = 2`, `inputs = [10, 20, 30]`. -/
theorem execute_multiset_witness :
    (1 : Int) ≤ 2 ∧
    Execute 2 [10, 20, 30] (fun x : Nat => x + 1) (GoResult.ok [11, 31, 21]) ∧
    ∃ outs, GoResult.ok [11, 31, 21] = GoResult.ok outs ∧
      (↑outs : Multiset Nat)
        = Multiset.map (fun x => x + 1) (↑[10, 20, 30] : Multiset Nat) := by
  have h : Execute (2 : Int) [10, 20, 30] (fun x : Nat => x + 1) (.ok [11, 31, 21]) :=
    execute_total 2 (by norm_num) [10, 20, 30] (fun x => x + 1)
  exact ⟨by norm_num, h,
    execute_multiset 2 [10, 20, 30] (fun x => x + 1) _ (by norm_num) h⟩

/-- C5: for every worker count `N ≥ 1`, `Execute` over the empty slice returns
the empty slice (and, there being no input to process, `process` is applied to
nothing). -/
theorem execute_empty_inputs (numOfRoutines : Int) (process : α → β)
    (r : GoResult β) (hN : 1 ≤ numOfRoutines)
    (h : Execute numOfRoutines [] process r) : r = .ok [] := by
  obtain ⟨outs, hr, hperm⟩ := execute_ok numOfRoutines hN [] process r h
  rw [hr, (by simpa using hperm : outs = [])]

/-- Witness for C5 at `numOfRoutines = 4`. -/
theorem execute_empty_inputs_witness :
    (1 : Int) ≤ 4 ∧
    Execute 4 ([] : List Nat) (fun x : Nat => x + 1) (GoResult.ok []) ∧
    (GoResult.ok [] : GoResult Nat) = .ok [] := by
  have h : Execute (4 : Int) ([] : List Nat) (fun x : Nat => x + 1) (.ok []) :=
    execute_total 4 (by norm_num) [] (fun x => x + 1)
  exact ⟨by norm_num, h, execute_empty_inputs 4 (fun x => x + 1) _ (by norm_num) h⟩

/-- C6: with more workers (10) than inputs (3), `Execute 10 [1,2,3] double`
still returns a complete slice whose multiset of elements is `{2, 4, 6}`. -/
theorem execute_more_workers_than_inputs (r : GoResult Int)
    (h : Execute 10 [1, 2, 3] (fun x : Int => 2 * x) r) :
    ∃ outs, r = .ok outs ∧ (↑outs : Multiset Int) = (↑([2, 4, 6] : List Int) : Multiset Int) := by
  obtain ⟨outs, hr, hperm⟩ :=
    execute_ok 10 (by norm_num) [1, 2, 3] (fun x : Int => 2 * x) r h
  refine ⟨outs, hr, Multiset.coe_eq_coe.mpr ?_⟩
  simpa using hperm

/-- Witness for C6. -/
theorem execute_more_workers_than_inputs_witness :
    Execute 10 [1, 2, 3] (fun x : Int => 2 * x) (GoResult.ok [2, 4, 6]) ∧
    ∃ outs, (GoResult.ok [2, 4, 6] : GoResult Int) = .ok outs ∧
      (↑outs : Multiset Int) = (↑([2, 4, 6] : List Int) : Multiset Int) := by
  have h : Execute (10 : Int) [1, 2, 3] (fun x : Int => 2 * x) (.ok [2, 4, 6]) :=
    execute_total 10 (by norm_num) [1, 2, 3] (fun x => 2 * x)
  exact ⟨h, execute_more_workers_than_inputs _ h⟩

/-- C8: for a fixed (pure) `process`, the multiset of returned values is the
same for every worker count `N ≥ 1`. -/
theorem execute_multiset_independent_of_workers (n₁ n₂ : Int) (inputs : List α)
    (process : α → β) (r₁ r₂ : GoResult β) (h₁N : 1 ≤ n₁) (h₂N : 1 ≤ n₂)
    (h₁ : Execute n₁ inputs process r₁) (h₂ : Execute n₂ inputs process r₂) :
    ∃ o₁ o₂, r₁ = .ok o₁ ∧ r₂ = .ok o₂ ∧ (↑o₁ : Multiset β) = (↑o₂ : Multiset β) := by
  obtain ⟨o₁, hr₁, hp₁⟩ := execute_ok n₁ h₁N inputs process r₁ h₁
  obtain ⟨o₂, hr₂, hp₂⟩ := execute_ok n₂ h₂N inputs process r₂ h₂
  exact ⟨o₁, o₂, hr₁, hr₂, Multiset.coe_eq_coe.mpr (hp₁.trans hp₂.symm)⟩

/-- Witness for C8 at worker counts 1 and 3 on `[5, 6, 7]`. -/
theorem execute_multiset_independent_of_workers_witness :
    (1 : Int) ≤ 1 ∧ (1 : Int) ≤ 3 ∧
    Execute 1 [5, 6, 7] (fun x : Nat => x * x) (GoResult.ok [25, 36, 49]) ∧
    Execute 3 [5, 6, 7] (fun x : Nat => x * x) (GoResult.ok [25, 36, 49]) ∧
    ∃ o₁ o₂, (GoResult.ok [25, 36, 49] : GoResult Nat) = .ok o₁ ∧
      (GoResult.ok [25, 36, 49] : GoResult Nat) = .ok o₂ ∧
      (↑o₁ : Multiset Nat) = (↑o₂ : Multiset Nat) := by
  have h₁ : Execute (1 : Int) [5, 6, 7] (fun x : Nat => x * x) (.ok [25, 36, 49]) :=
    execute_total 1 (by norm_num) [5, 6, 7] (fun x => x * x)
  have h₂ : Execute (3 : Int) [5, 6, 7] (fun x : Nat => x * x) (.ok [25, 36, 49]) :=
    execute_total 3 (by norm_num) [5, 6, 7] (fun x => x * x)
  exact ⟨by norm_num, by norm_num, h₁, h₂,
    execute_multiset_independent_of_workers 1 3 [5, 6, 7] (fun x => x * x) _ _
      (by norm_num) (by norm_num) h₁ h₂⟩

/-- C10: `Execute 0 [] process` returns normally with the empty slice: the
zero-worker loop spawns nothing, the distributor loop body never runs (so the
`i % numOfRoutines` divide-by-zero of line 34 is never reached), the wait group
count is zero and the output channel closes at once. -/
theorem execute_zero_workers_empty_inputs (process : α → β) (r : GoResult β)
    (h : Execute 0 [] process r) : r = .ok [] := by
  rw [Execute, if_neg (by omega), if_neg (by rintro ⟨-, h2⟩; simp at h2)] at h
  obtain ⟨outs, hr, hint⟩ := h
  have houts : outs = [] := by
    have := hint.perm_flatten
    simpa [workerOutputs, workerQueues, distribute] using this
  rw [hr, houts]

/-- Witness for C10. -/
theorem execute_zero_workers_empty_inputs_witness :
    Execute 0 ([] : List Nat) (fun x : Nat => x + 1) (GoResult.ok []) ∧
    (GoResult.ok [] : GoResult Nat) = .ok [] := by
  have h : Execute (0 : Int) ([] : List Nat) (fun x : Nat => x + 1) (.ok []) := by
    rw [Execute, if_neg (by omega), if_neg (by rintro ⟨-, h2⟩; simp at h2)]
    exact ⟨[], rfl, .nil _ (by simp [workerOutputs, workerQueues, distribute])⟩
  exact ⟨h, execute_zero_workers_empty_inputs (fun x => x + 1) _ h⟩

/-- C3 (documents the divergence): `Execute(0, [1,2,3], ·)` does not report an
invalid configuration — the distributor goroutine evaluates `0 % 0` on line 34
and the program dies with an integer divide-by-zero panic; `Execute(-1, [1,2,3],
·)` panics already in `make([](chan TypeIn), -1)` on line 11.  No worker
goroutine exists in either case, so `process` is indeed never invoked, but
neither call reports `InvalidConfiguration` as the spec requires. -/
theorem execute_invalid_count_panics :
    (∀ r : GoResult Int, Execute 0 [1, 2, 3] (fun x : Int => 2 * x) r →
        r = .panicked divideByZeroMsg) ∧
    (∀ r : GoResult Int, Execute (-1) [1, 2, 3] (fun x : Int => 2 * x) r →
        r = .panicked makesliceMsg) := by
  constructor
  · intro r h
    rw [Execute, if_neg (by omega), if_pos ⟨rfl, rfl⟩] at h
    exact h
  · intro r h
    rw [Execute, if_pos (by norm_num)] at h
    exact h

/-- Witness for the C3 divergence theorem. -/
theorem execute_invalid_count_panics_witness :
    (Execute 0 [1, 2, 3] (fun x : Int => 2 * x)
        (GoResult.panicked divideByZeroMsg) ∧
      (GoResult.panicked divideByZeroMsg : GoResult Int)
        = .panicked divideByZeroMsg) ∧
    (Execute (-1) [1, 2, 3] (fun x : Int => 2 * x)
        (GoResult.panicked makesliceMsg) ∧
      (GoResult.panicked makesliceMsg : GoResult Int)
        = .panicked makesliceMsg) := by
  have h0 : Execute (0 : Int) [1, 2, 3] (fun x : Int => 2 * x)
      (.panicked divideByZeroMsg) := by
    rw [Execute, if_neg (by omega), if_pos ⟨rfl, rfl⟩]
  have h1 : Execute (-1 : Int) [1, 2, 3] (fun x : Int => 2 * x)
      (.panicked makesliceMsg) := by
    rw [Execute, if_pos (by norm_num)]
  exact ⟨⟨h0, execute_invalid_count_panics.1 _ h0⟩,
    ⟨h1, execute_invalid_count_panics.2 _ h1⟩⟩

/-- C4: with worker count 1 the single worker receives all inputs in order and
the collector can only drain that one stream in order, so the result is exactly
`inputs.map process` — and any two runs on the same inputs coincide. -/
theorem execute_single_worker (inputs : List α) (process : α → β)
    (r₁ r₂ : GoResult β) (h₁ : Execute 1 inputs process r₁)
    (h₂ : Execute 1 inputs process r₂) :
    r₁ = .ok (inputs.map process) ∧ r₁ = r₂ := by
  have key : ∀ r : GoResult β, Execute 1 inputs process r →
      r = .ok (inputs.map process) := by
    intro r h
    rw [Execute, if_neg (by omega), if_neg (by rintro ⟨h0, -⟩; omega)] at h
    obtain ⟨outs, hr, hint⟩ := h
    have hq : workerOutputs (1 : Int).toNat inputs process
        = [inputs.map process] := by
      rw [workerOutputs, show (1 : Int).toNat = 1 from rfl, workerQueues_one]
      simp
    rw [hq] at hint
    rw [hr, hint.eq_of_singleton _ rfl]
  have k₁ := key r₁ h₁
  exact ⟨k₁, k₁.trans (key r₂ h₂).symm⟩

/-- Witness for C4 at `inputs = [3, 4]`. -/
theorem execute_single_worker_witness :
    Execute 1 [3, 4] (fun x : Nat => x + 1) (GoResult.ok [4, 5]) ∧
    (GoResult.ok [4, 5]
        = GoResult.ok ([3, 4].map (fun x : Nat => x + 1)) ∧
      (GoResult.ok [4, 5] : GoResult Nat) = GoResult.ok [4, 5]) := by
  have h : Execute (1 : Int) [3, 4] (fun x : Nat => x + 1) (.ok [4, 5]) :=
    execute_total 1 (by norm_num) [3, 4] (fun x => x + 1)
  exact ⟨h, execute_single_worker [3, 4] (fun x => x + 1) _ _ h h⟩

/-- C7: the distributor assigns the item at position `i` to worker
`i % numOfRoutines`: the stream sent to worker `w` is exactly the spec's
round-robin description (the items at positions congruent to `w`, in input
order), and worker `w` processes exactly that stream in FIFO order. -/
theorem distributor_assignment (numOfRoutines : Nat) (inputs : List α)
    (process : α → β) (w : Nat) (hw : w < numOfRoutines) :
    (workerQueues numOfRoutines inputs).getD w []
        = specWorkerQueue numOfRoutines inputs w ∧
    (workerOutputs numOfRoutines inputs process).getD w []
        = (specWorkerQueue numOfRoutines inputs w).map process := by
  have h₁ := workerQueues_getD numOfRoutines inputs w hw
  refine ⟨h₁, ?_⟩
  have hwlen : w < (workerQueues numOfRoutines inputs).length := by
    rw [length_workerQueues]; exact hw
  rw [workerOutputs, List.getD_eq_getElem _ _ (by simpa using hwlen),
    List.getElem_map, ← List.getD_eq_getElem _ _ hwlen, h₁]

/-- Witness for C7 at `numOfRoutines = 2`, `inputs = [7, 8, 9]`, `w = 1`. -/
theorem distributor_assignment_witness :
    1 < 2 ∧
    ((workerQueues 2 [7, 8, 9]).getD 1 []
        = specWorkerQueue 2 [7, 8, 9] 1 ∧
      (workerOutputs 2 [7, 8, 9] (fun x : Nat => x + 1)).getD 1 []
        = (specWorkerQueue 2 [7, 8, 9] 1).map (fun x : Nat => x + 1)) :=
  ⟨by norm_num,
    distributor_assignment 2 [7, 8, 9] (fun x : Nat => x + 1) 1 (by norm_num)⟩

/-! ### The rendezvous protocol of `Execute` as a transition system

The list-level model above abstracts away blocking.  To settle termination and
teardown we model the goroutines of one `Execute` call as a small-step
transition system over the unbuffered-channel rendezvous events.  A worker
goroutine (lines 23-28) is always in one of three places: blocked on the
receive of line 25, blocked on the send of line 26 holding one computed
result, or finished (its channel was closed and `wg.Done` of line 24 ran).
The distributor (lines 32-40) is characterised by the index of the next input
it will send; the collector loop (lines 48-51) by the slice built so far. -/

/-- Where one worker goroutine is blocked. -/
inductive WorkerStatus (β : Type) where
  | ready
  | sending (b : β)
  | done
deriving DecidableEq

/-- Global state of one `Execute` call: `dist` is the index of the next input
the distributor will send, `workers` the status of each worker goroutine,
`collected` the slice the collector loop has built so far. -/
structure PoolState (β : Type) where
  dist : Nat
  workers : List (WorkerStatus β)
  collected : List β

/-- State right after lines 11-29: nothing distributed, all `numOfRoutines`
workers blocked on their empty channels, nothing collected. -/
def initState (numOfRoutines : Nat) (β : Type) : PoolState β :=
  ⟨0, List.replicate numOfRoutines .ready, []⟩

/-- The rendezvous events of one `Execute` call:
* `handoff`: the send of line 35 meets the receive of line 25 — input `dist`
  reaches worker `dist % numOfRoutines`, which computes `process input` and
  blocks on the send of line 26;
* `collect`: the receive of line 49 meets the send of line 26 — one pending
  result moves to the collector and the worker returns to the receive of
  line 25;
* `finish`: once every input is handed off the distributor closes all input
  channels (lines 37-39), so a worker blocked on the receive exits its range
  loop and runs `wg.Done` (line 24). -/
inductive Step (numOfRoutines : Nat) (inputs : List α) (process : α → β) :
    PoolState β → PoolState β → Prop where
  | handoff (s : PoolState β) (h : s.dist < inputs.length)
      (hwlen : s.dist % numOfRoutines < s.workers.length)
      (hw : s.workers.get ⟨s.dist % numOfRoutines, hwlen⟩ = .ready) :
      Step numOfRoutines inputs process s
        ⟨s.dist + 1,
         s.workers.set (s.dist % numOfRoutines)
           (.sending (process (inputs.get ⟨s.dist, h⟩))),
         s.collected⟩
  | collect (s : PoolState β) (w : Nat) (b : β) (hwlen : w < s.workers.length)
      (hs : s.workers.get ⟨w, hwlen⟩ = .sending b) :
      Step numOfRoutines inputs process s
        ⟨s.dist, s.workers.set w .ready, s.collected ++ [b]⟩
  | finish (s : PoolState β) (w : Nat) (hd : s.dist = inputs.length)
      (hwlen : w < s.workers.length)
      (hs : s.workers.get ⟨w, hwlen⟩ = .ready) :
      Step numOfRoutines inputs process s
        ⟨s.dist, s.workers.set w .done, s.collected⟩

/-- The call has returned: every input was distributed and every worker ran
`wg.Done`, so `wg.Wait` (line 43) unblocked, the output channel was closed
(line 44) and the collector loop ended. -/
def FinalState (inputs : List α) (s : PoolState β) : Prop :=
  s.dist = inputs.length ∧ ∀ st ∈ s.workers, st = WorkerStatus.done

/-- States reachable from the start of the call. -/
def Reaches (numOfRoutines : Nat) (inputs : List α) (process : α → β)
    (s : PoolState β) : Prop :=
  Relation.ReflTransGen (Step numOfRoutines inputs process)
    (initState numOfRoutines β) s

/-- The result a worker holds on its blocked send, if any. -/
def statusResult : WorkerStatus β → Option β
  | .sending b => some b
  | _ => none

/-- All results computed but not yet received by the collector. -/
def pendingResults (workers : List (WorkerStatus β)) : List β :=
  workers.filterMap statusResult

/-- Weight of one worker toward the termination measure: a ready worker still
owes a finish event, a sending worker a collect and a finish event. -/
def workerWeight : WorkerStatus β → Nat
  | .ready => 1
  | .sending _ => 2
  | .done => 0

/-- Termination measure: three events remain per undistributed input, plus
what the current workers still owe. -/
def poolMeasure (inputs : List α) (s : PoolState β) : Nat :=
  3 * (inputs.length - s.dist) + (s.workers.map workerWeight).sum

/-- Protocol invariant, preserved by every step from the initial state. -/
structure PoolInv (numOfRoutines : Nat) (inputs : List α) (process : α → β)
    (s : PoolState β) : Prop where
  workers_length : s.workers.length = numOfRoutines
  dist_le : s.dist ≤ inputs.length
  done_dist : (∃ st ∈ s.workers, st = WorkerStatus.done) → s.dist = inputs.length
  results : (↑s.collected + ↑(pendingResults s.workers) : Multiset β)
      = Multiset.map process (↑(inputs.take s.dist) : Multiset α)

theorem pendingResults_parts (workers : List (WorkerStatus β)) (i : Nat)
    (h : i < workers.length) :
    pendingResults workers
      = pendingResults (workers.take i)
          ++ (pendingResults [workers.get ⟨i, h⟩]
              ++ pendingResults (workers.drop (i + 1))) := by
  simp only [pendingResults, List.get_eq_getElem]
  conv_lhs => rw [← List.take_append_drop i workers, List.drop_eq_getElem_cons h,
    ← List.singleton_append]
  rw [List.filterMap_append, List.filterMap_append]

theorem pendingResults_set (workers : List (WorkerStatus β)) (i : Nat)
    (h : i < workers.length) (st : WorkerStatus β) :
    pendingResults (workers.set i st)
      = pendingResults (workers.take i)
          ++ (pendingResults [st] ++ pendingResults (workers.drop (i + 1))) := by
  simp only [pendingResults]
  rw [List.set_eq_take_cons_drop _ h, ← List.singleton_append,
    List.filterMap_append, List.filterMap_append]

theorem weightSum_parts (workers : List (WorkerStatus β)) (i : Nat)
    (h : i < workers.length) :
    (workers.map workerWeight).sum
      = ((workers.take i).map workerWeight).sum
          + (([workers.get ⟨i, h⟩].map workerWeight).sum
              + ((workers.drop (i + 1)).map workerWeight).sum) := by
  simp only [List.get_eq_getElem]
  conv_lhs => rw [← List.take_append_drop i workers, List.drop_eq_getElem_cons h,
    ← List.singleton_append]
  rw [List.map_append, List.map_append, List.sum_append, List.sum_append]

theorem weightSum_set (workers : List (WorkerStatus β)) (i : Nat)
    (h : i < workers.length) (st : WorkerStatus β) :
    ((workers.set i st).map workerWeight).sum
      = ((workers.take i).map workerWeight).sum
          + (([st].map workerWeight).sum
              + ((workers.drop (i + 1)).map workerWeight).sum) := by
  rw [List.set_eq_take_cons_drop _ h, ← List.singleton_append,
    List.map_append, List.map_append, List.sum_append, List.sum_append]

theorem poolInv_init (numOfRoutines : Nat) (inputs : List α) (process : α → β) :
    PoolInv numOfRoutines inputs process (initState numOfRoutines β) := by
  refine ⟨by simp [initState], by simp [initState], ?_, ?_⟩
  · rintro ⟨st, hmem, rfl⟩
    simp [initState, List.mem_replicate] at hmem
  · have hpend : pendingResults
        (List.replicate numOfRoutines (WorkerStatus.ready : WorkerStatus β)) = [] := by
      rw [pendingResults, List.filterMap_eq_nil_iff]
      intro st hmem
      rw [List.eq_of_mem_replicate hmem]
      rfl
    simp [initState, hpend]

theorem poolInv_step (numOfRoutines : Nat) (inputs : List α) (process : α → β)
    (s t : PoolState β) (hinv : PoolInv numOfRoutines inputs process s)
    (hstep : Step numOfRoutines inputs process s t) :
    PoolInv numOfRoutines inputs process t := by
  obtain ⟨hlen, hdist, hdone, hmult⟩ := hinv
  cases hstep with
  | handoff h hwlen hw =>
      refine ⟨by simpa using hlen, by dsimp only; omega, ?_, ?_⟩
      · rintro ⟨st, hmem, rfl⟩
        rcases List.mem_or_eq_of_mem_set hmem with hmem' | heq
        · have := hdone ⟨_, hmem', rfl⟩
          omega
        · simp at heq
      · have hparts := pendingResults_parts s.workers (s.dist % numOfRoutines) hwlen
        rw [hw] at hparts
        have hset := pendingResults_set s.workers (s.dist % numOfRoutines) hwlen
          (.sending (process (inputs.get ⟨s.dist, h⟩)))
        rw [show pendingResults [(WorkerStatus.ready : WorkerStatus β)] = [] from rfl,
          List.nil_append] at hparts
        rw [show pendingResults [WorkerStatus.sending (process (inputs.get ⟨s.dist, h⟩))]
            = [process (inputs.get ⟨s.dist, h⟩)] from rfl] at hset
        dsimp only
        rw [hset]
        rw [hparts] at hmult
        have htake : inputs.take (s.dist + 1)
            = inputs.take s.dist ++ [inputs.get ⟨s.dist, h⟩] := by
          rw [List.get_eq_getElem]
          exact (List.take_concat_get' inputs s.dist h).symm
        rw [htake]
        simp only [← Multiset.coe_add, Multiset.map_add, Multiset.map_coe,
          List.map_cons, List.map_nil] at hmult ⊢
        rw [← hmult]
        abel
  | collect w b hwlen hs =>
      refine ⟨by simpa using hlen, hdist, ?_, ?_⟩
      · rintro ⟨st, hmem, rfl⟩
        rcases List.mem_or_eq_of_mem_set hmem with hmem' | heq
        · exact hdone ⟨_, hmem', rfl⟩
        · simp at heq
      · have hparts := pendingResults_parts s.workers w hwlen
        rw [hs] at hparts
        have hset := pendingResults_set s.workers w hwlen .ready
        rw [show pendingResults [(WorkerStatus.ready : WorkerStatus β)] = [] from rfl,
          List.nil_append] at hset
        rw [show pendingResults [WorkerStatus.sending b] = [b] from rfl] at hparts
        dsimp only
        rw [hset]
        rw [hparts] at hmult
        rw [← hmult]
        simp only [← Multiset.coe_add]
        abel
  | finish w hd hwlen hs =>
      refine ⟨by simpa using hlen, hdist, fun _ => hd, ?_⟩
      have hparts := pendingResults_parts s.workers w hwlen
      rw [hs] at hparts
      have hset := pendingResults_set s.workers w hwlen .done
      rw [show pendingResults [(WorkerStatus.ready : WorkerStatus β)] = [] from rfl,
        List.nil_append] at hparts
      rw [show pendingResults [(WorkerStatus.done : WorkerStatus β)] = [] from rfl,
        List.nil_append] at hset
      dsimp only
      rw [hset, ← hparts]
      exact hmult

theorem poolInv_reaches (numOfRoutines : Nat) (inputs : List α) (process : α → β)
    (s : PoolState β) (h : Reaches numOfRoutines inputs process s) :
    PoolInv numOfRoutines inputs process s := by
  induction h with
  | refl => exact poolInv_init numOfRoutines inputs process
  | tail hr hstep ih => exact poolInv_step _ _ _ _ _ ih hstep

/-- Every step strictly decreases the termination measure, so no execution of
the protocol runs forever. -/
theorem step_measure (numOfRoutines : Nat) (inputs : List α) (process : α → β)
    (s t : PoolState β) (hinv : PoolInv numOfRoutines inputs process s)
    (hstep : Step numOfRoutines inputs process s t) :
    poolMeasure inputs t < poolMeasure inputs s := by
  obtain ⟨hlen, hdist, -, -⟩ := hinv
  cases hstep with
  | handoff h hwlen hw =>
      have hparts := weightSum_parts s.workers _ hwlen
      rw [hw] at hparts
      have hset := weightSum_set s.workers _ hwlen
        (.sending (process (inputs.get ⟨s.dist, h⟩)))
      rw [show ([(WorkerStatus.ready : WorkerStatus β)].map workerWeight).sum = 1
        from rfl] at hparts
      rw [show ([WorkerStatus.sending (process (inputs.get ⟨s.dist, h⟩))].map
          workerWeight).sum = 2 from rfl] at hset
      simp only [poolMeasure]
      omega
  | collect w b hwlen hs =>
      have hparts := weightSum_parts s.workers w hwlen
      rw [hs] at hparts
      have hset := weightSum_set s.workers w hwlen .ready
      rw [show ([WorkerStatus.sending b].map workerWeight).sum = 2 from rfl] at hparts
      rw [show ([(WorkerStatus.ready : WorkerStatus β)].map workerWeight).sum = 1
        from rfl] at hset
      simp only [poolMeasure]
      omega
  | finish w hd hwlen hs =>
      have hparts := weightSum_parts s.workers w hwlen
      rw [hs] at hparts
      have hset := weightSum_set s.workers w hwlen .done
      rw [show ([(WorkerStatus.ready : WorkerStatus β)].map workerWeight).sum = 1
        from rfl] at hparts
      rw [show ([(WorkerStatus.done : WorkerStatus β)].map workerWeight).sum = 0
        from rfl] at hset
      simp only [poolMeasure]
      omega

/-- Deadlock freedom: a reachable state that is not final always offers a
rendezvous.  In particular no configuration of blocked goroutines can persist:
the call blocks only until all inputs are processed, never forever. -/
theorem step_progress (numOfRoutines : Nat) (inputs : List α) (process : α → β)
    (hN : 1 ≤ numOfRoutines) (s : PoolState β)
    (hinv : PoolInv numOfRoutines inputs process s)
    (hnf : ¬ FinalState inputs s) :
    ∃ t, Step numOfRoutines inputs process s t := by
  obtain ⟨hlen, hdist, hdone, -⟩ := hinv
  by_cases hd : s.dist < inputs.length
  · have hwlen : s.dist % numOfRoutines < s.workers.length := by
      rw [hlen]; exact Nat.mod_lt _ hN
    cases hget : s.workers.get ⟨s.dist % numOfRoutines, hwlen⟩ with
    | ready => exact ⟨_, .handoff s hd hwlen hget⟩
    | sending b => exact ⟨_, .collect s (s.dist % numOfRoutines) b hwlen hget⟩
    | done =>
        have : s.dist = inputs.length :=
          hdone ⟨_, List.get_mem _ _ _, hget⟩
        omega
  · have hdeq : s.dist = inputs.length := by omega
    have hex : ∃ w : Fin s.workers.length,
        s.workers.get w ≠ WorkerStatus.done := by
      by_contra hall
      push_neg at hall
      refine hnf ⟨hdeq, fun st hmem => ?_⟩
      obtain ⟨w, hwget⟩ := List.mem_iff_get.mp hmem
      rw [← hwget]
      exact hall w
    obtain ⟨w, hwne⟩ := hex
    cases hget : s.workers.get w with
    | ready => exact ⟨_, .finish s w.1 hdeq w.2 (by simpa using hget)⟩
    | sending b => exact ⟨_, .collect s w.1 b w.2 (by simpa using hget)⟩
    | done => exact absurd hget hwne

/-- In a final state the collector has received exactly the full multiset of
results, one per input. -/
theorem finalState_collected (numOfRoutines : Nat) (inputs : List α)
    (process : α → β) (s : PoolState β)
    (hinv : PoolInv numOfRoutines inputs process s)
    (hfin : FinalState inputs s) :
    (↑s.collected : Multiset β) = Multiset.map process (↑inputs : Multiset α) ∧
      s.collected.length = inputs.length := by
  obtain ⟨-, -, -, hmult⟩ := hinv
  obtain ⟨hdeq, hall⟩ := hfin
  have hpend : pendingResults s.workers = [] := by
    rw [pendingResults, List.filterMap_eq_nil_iff]
    intro st hmem
    rw [hall st hmem]
    rfl
  rw [hpend, hdeq, List.take_length] at hmult
  have hcoll : (↑s.collected : Multiset β) = Multiset.map process ↑inputs := by
    simpa using hmult
  refine ⟨hcoll, ?_⟩
  have hcard := congrArg Multiset.card hcoll
  simpa using hcard

/-- C9: for every worker count `N ≥ 1`, every finite input slice and every
total `process`, the goroutine protocol of `Execute` always terminates and
tears everything down: every step strictly decreases a natural-number measure
(so no execution runs forever), every reachable non-final state still offers a
rendezvous (so the call blocks only until all inputs are processed, never
deadlocks), and in any reachable final state all workers have run `wg.Done`
and the caller holds exactly one result per input — at which point `Execute`
returns. -/
theorem execute_terminates (numOfRoutines : Nat) (inputs : List α)
    (process : α → β) (hN : 1 ≤ numOfRoutines) (s : PoolState β)
    (hreach : Reaches numOfRoutines inputs process s) :
    (∀ t, Step numOfRoutines inputs process s t →
        poolMeasure inputs t < poolMeasure inputs s) ∧
    (¬ FinalState inputs s → ∃ t, Step numOfRoutines inputs process s t) ∧
    (FinalState inputs s →
        (∀ st ∈ s.workers, st = WorkerStatus.done) ∧
        (↑s.collected : Multiset β) = Multiset.map process (↑inputs : Multiset α) ∧
        s.collected.length = inputs.length) := by
  have hinv := poolInv_reaches numOfRoutines inputs process s hreach
  refine ⟨fun t hstep => step_measure numOfRoutines inputs process s t hinv hstep,
    fun hnf => step_progress numOfRoutines inputs process hN s hinv hnf,
    fun hfin => ⟨hfin.2,
      (finalState_collected numOfRoutines inputs process s hinv hfin).1,
      (finalState_collected numOfRoutines inputs process s hinv hfin).2⟩⟩

/-- Witness for C9 at `numOfRoutines = 1`, `inputs = [5]`, from the initial
state of the call. -/
theorem execute_terminates_witness :
    1 ≤ 1 ∧
    Reaches 1 [5] (fun x : Nat => x * 2) (initState 1 Nat) ∧
    ((∀ t, Step 1 [5] (fun x : Nat => x * 2) (initState 1 Nat) t →
        poolMeasure [5] t < poolMeasure [5] (initState 1 Nat)) ∧
     (¬ FinalState [5] (initState 1 Nat) →
        ∃ t, Step 1 [5] (fun x : Nat => x * 2) (initState 1 Nat) t) ∧
     (FinalState [5] (initState 1 Nat) →
        (∀ st ∈ (initState 1 Nat).workers, st = WorkerStatus.done) ∧
        (↑(initState 1 Nat).collected : Multiset Nat)
          = Multiset.map (fun x : Nat => x * 2) (↑([5] : List Nat) : Multiset Nat) ∧
        (initState 1 Nat).collected.length = ([5] : List Nat).length)) := by
  have hreach : Reaches 1 [5] (fun x : Nat => x * 2) (initState 1 Nat) :=
    Relation.ReflTransGen.refl
  exact ⟨by norm_num, hreach,
    execute_terminates 1 [5] (fun x => x * 2) (by norm_num) (initState 1 Nat) hreach⟩

end Concurrent
